import Mathlib

/-!
Verification development for the viewproxy repository.

The Go sources are shallowly embedded as executable Lean definitions:

* `viewproxy/route.go` and the routing part of the serving layer:
  `Route`, `Route.matchParts`, `Route.parametersFor`, `Server.matchingRoute`.
* `pkg/multiplexer` (in `pkg/server/server.go`): `Request.Do`'s
  collection/sort pipeline (`indexOfResult`, `doRace`), `Request.fetchUrl`
  (gzip handling, strict non-2xx mode), `headersWithHmac`,
  `pathFromFullUrl`, together with an executable SHA-256 / HMAC-SHA256.
* `response_builder.go`: `responseBuilder.SetFragments` (body
  concatenation, placeholder substitution, title resolution) and the older
  `Server.ServeHTTP` whose error path reads `results[0]`.

Go machine integers in the hash code are modelled as `Nat` reduced
modulo `2 ^ 32`; byte strings are `List Nat` (each entry `< 256`);
`map[string]string` / `http.Header` are modelled as association lists with
Go's first-match lookup and overwrite-on-insert semantics.
-/

namespace Viewproxy

set_option maxRecDepth 10000

/-! ## Go string primitives

Modelled on the character list underlying a `String`, which keeps them
kernel-computable. -/

/-- Character-level split used by `strings.Split(path, "/")`. -/
def splitOnChar (sep : Char) : List Char → List (List Char)
  | [] => [[]]
  | c :: cs =>
    let r := splitOnChar sep cs
    if c = sep then [] :: r
    else
      match r with
      | [] => [[c]]
      | h :: t => (c :: h) :: t

/-- `strings.Split(s, "/")`. -/
def goSplitSlash (s : String) : List String :=
  (splitOnChar '/' s.data).map String.mk

/-- `strings.HasPrefix(s, pre)`. -/
def goHasPrefix (s pre : String) : Bool := pre.data.isPrefixOf s.data

/-- The Go slice `s[1:]` on a string (used for parameter names). -/
def goStrDropOne (s : String) : String := String.mk (s.data.drop 1)

instance {ε α : Type} [DecidableEq ε] [DecidableEq α] : DecidableEq (Except ε α) :=
  fun a b =>
  match a, b with
  | .ok x, .ok y =>
      if h : x = y then isTrue (by rw [h])
      else isFalse (by intro hh; injection hh; contradiction)
  | .error x, .error y =>
      if h : x = y then isTrue (by rw [h])
      else isFalse (by intro hh; injection hh; contradiction)
  | .ok _, .error _ => isFalse (fun h => Except.noConfusion h)
  | .error _, .ok _ => isFalse (fun h => Except.noConfusion h)

/-! ## Go map / header model -/

/-- Go `map[string]string` assignment `m[k] = v`: overwrite the existing
binding when the key is present, otherwise append a new binding. -/
def goInsert (m : List (String × String)) (k v : String) : List (String × String) :=
  if m.any (fun p => p.1 == k) then
    m.map (fun p => if p.1 == k then (k, v) else p)
  else
    m ++ [(k, v)]

/-- Go map lookup returning the bound value when present. -/
def goGet (m : List (String × String)) (k : String) : Option String :=
  (m.find? (fun p => p.1 == k)).map (fun p => p.2)

/-- Go `http.Header.Get`: first value for the key, or `""` when absent.
Keys are used consistently in the embedded code, so MIME canonicalisation
is the identity here. -/
def headerGet (m : List (String × String)) (k : String) : String :=
  match m.find? (fun p => p.1 == k) with
  | some p => p.2
  | none => ""

/-- Go `http.Header.Set`: replace every value bound to the key with the
single given value. -/
def headerSet (m : List (String × String)) (k v : String) : List (String × String) :=
  (m.filter (fun p => ¬(p.1 == k))) ++ [(k, v)]

/-! ## Router (`route.go`, `Server.matchingRoute`)

`Route.Parts` is the registration path split on `/`; a part beginning
with `:` is a named parameter. -/

structure Route where
  parts : List String
  layout : String
  fragments : List String
deriving Repr, DecidableEq

/-- `newRoute` in `route.go`: split the registered path on `/`. -/
def newRoute (path : String) (layout : String) (fragments : List String) : Route :=
  { parts := goSplitSlash path, layout := layout, fragments := fragments }

/-- `Route.matchParts`: lengths must agree and every part must either be
equal to the path part or start with the parameter marker `:`. -/
def matchParts (routeParts pathParts : List String) : Bool :=
  routeParts.length == pathParts.length &&
    (List.zip routeParts pathParts).all
      (fun p => p.1 == p.2 || goHasPrefix p.1 ":")

/-- The loop of `Route.parametersFor` with its accumulator map explicit:
walk the parts in order and bind each parameter name (part with the
leading `:` removed) to the positionally corresponding path part. -/
def parametersForLoop (m : List (String × String))
    (routeParts pathParts : List String) : List (String × String) :=
  (List.zip routeParts pathParts).foldl
    (fun m p => if goHasPrefix p.1 ":" then goInsert m (goStrDropOne p.1) p.2 else m) m

/-- `Route.parametersFor`: start from the empty map and run the loop.
Call sites only use this after `matchParts` succeeded, so both lists
have equal length. -/
def parametersFor (routeParts pathParts : List String) : List (String × String) :=
  parametersForLoop [] routeParts pathParts

/-- The parameter names a route's parts declare, in order. -/
def paramNames (routeParts : List String) : List String :=
  (routeParts.filter (fun s => goHasPrefix s ":")).map goStrDropOne

/-- `Server.matchingRoute`: split the inbound path on `/`, scan the route
table in registration order, return the first route that matches together
with its extracted parameters. -/
def matchingRoute (routes : List Route) (path : String) :
    Option (Route × List (String × String)) :=
  let parts := goSplitSlash path
  match routes.find? (fun r => matchParts r.parts parts) with
  | some r => some (r, parametersFor r.parts parts)
  | none => none

/-! ## SHA-256 and HMAC-SHA256 (`crypto/sha256`, `crypto/hmac`)

Executable model of the Go standard library primitives used by
`Request.headersWithHmac`.  32-bit words are `Nat` reduced mod `2 ^ 32`,
bytes are `Nat` entries `< 256`. -/

/-- Truncate to a 32-bit word. -/
def w32 (n : Nat) : Nat := n % 4294967296

/-- 32-bit right rotation. -/
def rotr32 (x n : Nat) : Nat := w32 ((x >>> n) ||| w32 (x <<< (32 - n)))

def shaCh (e f g : Nat) : Nat := (e &&& f) ^^^ ((e ^^^ 4294967295) &&& g)

def shaMaj (a b c : Nat) : Nat := (a &&& b) ^^^ (a &&& c) ^^^ (b &&& c)

def bigSigma0 (x : Nat) : Nat := rotr32 x 2 ^^^ rotr32 x 13 ^^^ rotr32 x 22

def bigSigma1 (x : Nat) : Nat := rotr32 x 6 ^^^ rotr32 x 11 ^^^ rotr32 x 25

def smallSigma0 (x : Nat) : Nat := rotr32 x 7 ^^^ rotr32 x 18 ^^^ (x >>> 3)

def smallSigma1 (x : Nat) : Nat := rotr32 x 17 ^^^ rotr32 x 19 ^^^ (x >>> 10)

/-- SHA-256 round constants (FIPS 180-4, written in decimal). -/
def shaK : List Nat :=
  [1116352408, 1899447441, 3049323471, 3921009573, 961987163,
   1508970993, 2453635748, 2870763221, 3624381080, 310598401,
   607225278, 1426881987, 1925078388, 2162078206, 2614888103,
   3248222580, 3835390401, 4022224774, 264347078, 604807628,
   770255983, 1249150122, 1555081692, 1996064986, 2554220882,
   2821834349, 2952996808, 3210313671, 3336571891, 3584528711,
   113926993, 338241895, 666307205, 773529912, 1294757372,
   1396182291, 1695183700, 1986661051, 2177026350, 2456956037,
   2730485921, 2820302411, 3259730800, 3345764771, 3516065817,
   3600352804, 4094571909, 275423344, 430227734, 506948616,
   659060556, 883997877, 958139571, 1322822218, 1537002063,
   1747873779, 1955562222, 2024104815, 2227730452, 2361852424,
   2428436474, 2756734187, 3204031479, 3329325298]

/-- SHA-256 initial hash state (FIPS 180-4, written in decimal). -/
def shaH0 : List Nat :=
  [1779033703, 3144134277, 1013904242, 2773480762,
   1359893119, 2600822924, 528734635, 1541459225]

/-- Big-endian byte encoding of `n` on `k` bytes. -/
def toBytesBE : Nat → Nat → List Nat
  | 0, _ => []
  | k + 1, n => toBytesBE k (n / 256) ++ [n % 256]

/-- Group bytes into big-endian 32-bit words. -/
def bytesToWords : List Nat → List Nat
  | b0 :: b1 :: b2 :: b3 :: rest =>
      (((b0 * 256 + b1) * 256 + b2) * 256 + b3) :: bytesToWords rest
  | _ => []

/-- Extend the 16 message words to the 64-entry schedule (`fuel = 48`). -/
def extendSchedule : List Nat → Nat → List Nat
  | ws, 0 => ws
  | ws, fuel + 1 =>
      let n := ws.length
      let w := w32 (smallSigma1 (ws.getD (n - 2) 0) + ws.getD (n - 7) 0 +
                    smallSigma0 (ws.getD (n - 15) 0) + ws.getD (n - 16) 0)
      extendSchedule (ws ++ [w]) fuel

/-- One SHA-256 compression round; the state is `[a,b,c,d,e,f,g,h]`. -/
def shaRound (st : List Nat) (kw : Nat × Nat) : List Nat :=
  match st with
  | [a, b, c, d, e, f, g, h] =>
      let t1 := w32 (h + bigSigma1 e + shaCh e f g + kw.1 + kw.2)
      let t2 := w32 (bigSigma0 a + shaMaj a b c)
      [w32 (t1 + t2), a, b, c, w32 (d + t1), e, f, g]
  | other => other

/-- Compress one 64-byte block into the running hash state. -/
def processBlock (hstate : List Nat) (block : List Nat) : List Nat :=
  let ws := extendSchedule (bytesToWords block) 48
  let fin := (shaK.zip ws).foldl shaRound hstate
  (hstate.zip fin).map (fun p => w32 (p.1 + p.2))

/-- SHA-256 padding: `0x80`, zeros to 56 mod 64, 8-byte big-endian bit
length. -/
def padBytes (msg : List Nat) : List Nat :=
  let L := msg.length
  let zeros := (64 - ((L + 9) % 64)) % 64
  msg ++ [0x80] ++ List.replicate zeros 0 ++ toBytesBE 8 (8 * L)

/-- Split into 64-byte chunks (`fuel` bounds the number of chunks). -/
def chunks64 : Nat → List Nat → List (List Nat)
  | 0, _ => []
  | _, [] => []
  | fuel + 1, l => l.take 64 :: chunks64 fuel (l.drop 64)

/-- SHA-256 of a byte string. -/
def sha256 (msg : List Nat) : List Nat :=
  let padded := padBytes msg
  let hs := (chunks64 padded.length padded).foldl processBlock shaH0
  (hs.map (toBytesBE 4)).flatten

/-- HMAC-SHA256 (`crypto/hmac` with `sha256.New`): block size 64. -/
def hmacSha256 (key msg : List Nat) : List Nat :=
  let k1 := if 64 < key.length then sha256 key else key
  let k0 := k1 ++ List.replicate (64 - k1.length) 0
  let ipad := k0.map (fun b => b ^^^ 0x36)
  let opad := k0.map (fun b => b ^^^ 0x5c)
  sha256 (opad ++ sha256 (ipad ++ msg))

/-- Lower-case hex digit. -/
def hexDigit (n : Nat) : Char :=
  if n < 10 then Char.ofNat (48 + n) else Char.ofNat (87 + n)

/-- `encoding/hex.EncodeToString` over our byte strings. -/
def hexEncode (bs : List Nat) : String :=
  String.mk ((bs.map (fun b => [hexDigit (b / 16), hexDigit (b % 16)])).flatten)

/-- Bytes of an ASCII string (all strings signed by the code are ASCII, so
this agrees with Go's UTF-8 `[]byte` conversion). -/
def strBytes (s : String) : List Nat := s.toList.map Char.toNat

/-! ## Multiplexer (`pkg/server/server.go`, package `multiplexer`) -/

/-- A `fragment` of a `Request`: target URL plus tracing metadata (the
metadata only feeds trace spans and is never read by the fetch logic). -/
structure Frag where
  url : String
  metadata : List (String × String)
deriving Repr, DecidableEq

instance : Inhabited Frag := ⟨⟨"", []⟩⟩

/-- The upstream HTTP response as seen by `fetchUrl` after `client.Do`
succeeded and the raw body bytes were read. -/
structure GoResponse where
  statusCode : Nat
  headers : List (String × String)
  body : List Nat
deriving Repr, DecidableEq

/-- `multiplexer.Result`: URL, status code, the response (headers), and
the decoded body bytes.  `Duration` is wall-clock time and is not
modelled. -/
structure MResult where
  url : String
  statusCode : Nat
  headers : List (String × String)
  body : List Nat
deriving Repr, DecidableEq

instance : Inhabited MResult := ⟨⟨"", 0, [], []⟩⟩

/-- Errors a single fetch can produce: a transport-level failure
(`client.Do` error), a gzip decompression failure, or
`multiplexer.ResultError` wrapping the non-2xx `Result` in strict mode. -/
inductive FetchError where
  | transport
  | decode
  | resultError (result : MResult)
deriving Repr, DecidableEq

/-- Body decoding in `fetchUrl`: when the `Content-Encoding` header equals
`"gzip"`, the body is run through the (injected) gzip decoder, whose
failure (`none`) aborts the fetch; otherwise the raw bytes pass through
unchanged. -/
def bodyAfterEncoding (gunzip : List Nat → Option (List Nat))
    (headers : List (String × String)) (raw : List Nat) : Option (List Nat) :=
  if headerGet headers "Content-Encoding" = "gzip" then gunzip raw else some raw

/-- `Request.fetchUrl`: `none` as the response models a `client.Do`
transport failure; otherwise decode the body, build the `Result`, and in
strict mode (`Non2xxErrors`) turn a status outside `[200, 299]` into a
`ResultError` that retains the `Result`. -/
def fetchUrl (gunzip : List Nat → Option (List Nat)) (strict : Bool)
    (url : String) (resp : Option GoResponse) : Except FetchError MResult :=
  match resp with
  | none => .error .transport
  | some resp =>
    match bodyAfterEncoding gunzip resp.headers resp.body with
    | none => .error .decode
    | some body =>
      let result : MResult :=
        { url := url, statusCode := resp.statusCode, headers := resp.headers, body := body }
      if strict && (resp.statusCode < 200 || 299 < resp.statusCode) then
        .error (.resultError result)
      else
        .ok result

/-- `pathFromFullUrl` applied to the parsed URL components: path plus
`?query` only when the raw query is non-empty. -/
def pathFromFullUrl (path rawQuery : String) : String :=
  if rawQuery ≠ "" then path ++ "?" ++ rawQuery else path

/-- `Request.headersWithHmac`: copy the request headers, then `Set` the
`Authorization` header to the hex HMAC-SHA256 of
`pathFromFullUrl(url) ++ "," ++ timestamp` under the secret, and the
`X-Authorization-Time` header to the timestamp (`time.Now().Unix()`
rendered in decimal, taken here as a parameter). -/
def headersWithHmac (header : List (String × String)) (secret : String)
    (path rawQuery : String) (timestamp : Nat) : List (String × String) :=
  let ts := toString timestamp
  let msg := pathFromFullUrl path rawQuery ++ "," ++ ts
  let mac := hmacSha256 (strBytes secret) (strBytes msg)
  headerSet (headerSet header "Authorization" (hexEncode mac)) "X-Authorization-Time" ts

/-- `indexOfResult` with a starting offset (loop index). -/
def indexOfResultAux : List Frag → MResult → Nat → Int
  | [], _, _ => -1
  | f :: fs, r, i => if f.url == r.url then (i : Int) else indexOfResultAux fs r (i + 1)

/-- `indexOfResult`: index of the first fragment whose URL equals the
result's URL, or `-1`. -/
def indexOfResult (fragments : List Frag) (result : MResult) : Int :=
  indexOfResultAux fragments result 0

/-- The comparator of the `sort.SliceStable` call in `Request.Do` turned
into the before-or-equal relation of a stable sort. -/
def resultLE (fragments : List Frag) (a b : MResult) : Prop :=
  indexOfResult fragments a ≤ indexOfResult fragments b

instance (fragments : List Frag) : DecidableRel (resultLE fragments) := by
  intro a b
  unfold resultLE
  infer_instance

/-- The strict version of `resultLE`, used to state uniqueness of the
sorted order. -/
def resultLT (fragments : List Frag) (a b : MResult) : Prop :=
  indexOfResult fragments a < indexOfResult fragments b

instance (fragments : List Frag) : IsAntisymm MResult (resultLT fragments) :=
  ⟨fun _ _ h1 h2 => absurd (lt_trans h1 h2) (lt_irrefl _)⟩

/-- Results read off `resultsCh` in arrival order `order` (one entry per
goroutine index); only successful fetches put a real result there. -/
def collectResults (fetchOf : Nat → Except FetchError MResult) (order : List Nat) :
    List MResult :=
  order.filterMap (fun i => (fetchOf i).toOption)

/-- Error outcome of `Request.Do`: an error from `errCh`, or `ctx.Err()`
after the deadline. -/
inductive DoError where
  | fetch (e : FetchError)
  | deadlineExceeded
deriving Repr, DecidableEq

/-- Which of the three `select` branches of `Request.Do` fires first:
the first error arriving on `errCh` (from goroutine `i`), all goroutines
finishing (results arriving on `resultsCh` in order `order`), or the
context deadline elapsing. -/
inductive RaceOutcome where
  | errorFirst (i : Nat) (e : FetchError)
  | allDone (order : List Nat)
  | timedOut
deriving Repr, DecidableEq

/-- The outcomes the Go scheduler can actually produce for `Request.Do`
with a timeout of `timeout` (in any positive unit):
* an error branch needs goroutine `i` to exist and to have failed with
  that error (only failed fetches send on `errCh`);
* the `done` branch needs every fetch to have succeeded — a failed
  goroutine blocks on the unbuffered `errCh` send before its deferred
  `wg.Done`, so `done` can never close — and the results to arrive in
  some permutation of the goroutine indices;
* the deadline branch needs either a fragment to wait on (with zero
  fragments `done` is closed immediately, so with a positive timeout the
  `select` always sees `done` first) or a zero timeout. -/
def ValidOutcome (timeout : Nat) (fragments : List Frag)
    (fetchOf : Nat → Except FetchError MResult) : RaceOutcome → Prop
  | .errorFirst i e => i < fragments.length ∧ fetchOf i = .error e
  | .allDone order => order.Perm (List.range fragments.length) ∧
      ∀ i < fragments.length, (fetchOf i).isOk
  | .timedOut => fragments ≠ [] ∨ timeout = 0

/-- `Request.Do` after the goroutines are launched, as a function of the
race outcome.  The Go function returns the pair `(results, err)`:
* first error: `(make([]*Result, 0), err)`;
* all done: collect `len(fragments)` results from `resultsCh` and sort
  them stably by `indexOfResult` (`sort.SliceStable`, modelled by the
  stable `List.insertionSort`);
* deadline: `(make([]*Result, 0), ctx.Err())`. -/
def doRace (fragments : List Frag) (fetchOf : Nat → Except FetchError MResult) :
    RaceOutcome → List MResult × Option DoError
  | .errorFirst _ e => ([], some (.fetch e))
  | .allDone order =>
      (List.insertionSort (resultLE fragments) (collectResults fetchOf order), none)
  | .timedOut => ([], some .deadlineExceeded)

instance (timeout : Nat) (fragments : List Frag)
    (fetchOf : Nat → Except FetchError MResult) (o : RaceOutcome) :
    Decidable (ValidOutcome timeout fragments fetchOf o) := by
  cases o <;> (unfold ValidOutcome; infer_instance)

/-! ## Response assembler (`response_builder.go`) -/

/-- Index of the first occurrence of `old` in `s` (Go `bytes.Index`):
`some i` when `old` starts at `i` and at no smaller index, `none` when
`old` never occurs.  For `old = []` this is `some 0`, as in Go. -/
def findOcc (old : List Nat) : List Nat → Option Nat
  | [] => if old = [] then some 0 else none
  | a :: s => if old.isPrefixOf (a :: s) then some 0 else (findOcc old s).map (· + 1)

/-- Go `bytes.Replace(s, old, new, 1)`: replace the first occurrence of
`old` by `new`, or return `s` unchanged when `old` does not occur. -/
def replaceFirst (s old new : List Nat) : List Nat :=
  match findOcc old s with
  | none => s
  | some i => s.take i ++ new ++ s.drop (i + old.length)

/-- The title-override header read by the assembler. -/
def titleHeaderOf (r : MResult) : String := headerGet r.headers "X-View-Proxy-Title"

/-- The `contentHtml` accumulator of `SetFragments`: fragment bodies
appended in input order. -/
def concatBodies (results : List MResult) : List Nat :=
  results.foldl (fun acc r => acc ++ r.body) []

/-- The `pageTitle` accumulator of `SetFragments`: start from `start` and
overwrite with each non-empty `X-View-Proxy-Title` header in order. -/
def scanTitle (start : String) (results : List MResult) : String :=
  results.foldl (fun acc r => if titleHeaderOf r ≠ "" then titleHeaderOf r else acc) start

/-- Title resolution in `SetFragments`: last non-empty override header
wins, the configured default is used when the scan stays empty. -/
def resolveTitle (results : List MResult) (defaultTitle : String) : String :=
  let t := scanTitle "" results
  if t = "" then defaultTitle else t

/-- The content placeholder `{{{VIEW_PROXY_CONTENT}}}` as bytes. -/
def contentTok : List Nat := strBytes "\x7b\x7b\x7bVIEW_PROXY_CONTENT\x7d\x7d\x7d"

/-- The title placeholder `{{{VIEW_PROXY_PAGE_TITLE}}}` as bytes. -/
def pageTitleTok : List Nat := strBytes "\x7b\x7b\x7bVIEW_PROXY_PAGE_TITLE\x7d\x7d\x7d"

/-- `responseBuilder.SetFragments` acting on the builder body previously
set by `SetLayout` (`layoutBody`): concatenate the fragment bodies,
resolve the title, and either pass the concatenation through (empty
layout) or substitute the two placeholders, each via
`bytes.Replace(_, _, _, 1)`. -/
def setFragments (layoutBody : List Nat) (results : List MResult)
    (defaultTitle : String) : List Nat :=
  let contentHtml := concatBodies results
  let pageTitle := resolveTitle results defaultTitle
  if layoutBody.length = 0 then
    contentHtml
  else
    replaceFirst (replaceFirst layoutBody contentTok contentHtml)
      pageTitleTok (strBytes pageTitle)

/-! ## The older serving handler (`Server.ServeHTTP` in
`response_builder.go`)

`multiplexer.Fetch` itself is not part of the sources.
Modelled from the spec: on aggregate failure the multiplexer returns the
error and no results — "partial results already collected are discarded"
(§7), matching `Request.Do` in `pkg/server/server.go`, which returns
`make([]*Result, 0), err` on every error branch.  `serveFetchOutput`
is that contract: the handler receives either `(results, none)` or
`([], some err)`. -/

/-- The pair `multiplexer.Fetch` hands to `ServeHTTP`; on error the
result slice is empty. -/
def serveFetchOutput (outcome : Except DoError (List MResult)) :
    List MResult × Option DoError :=
  match outcome with
  | .ok results => (results, none)
  | .error e => ([], some e)

/-- The route-found branch of the older `Server.ServeHTTP`, from the
`multiplexer.Fetch` call site onward.  After (only) logging a fetch
error, the code unconditionally evaluates `results[0].Body`; `none`
models the Go `index out of range` panic this raises when the result
slice is empty. -/
def serveHTTPFound (defaultTitle : String)
    (fetchOut : List MResult × Option DoError) : Option (List Nat) :=
  match fetchOut.1 with
  | [] => none
  | layoutRes :: rest =>
      let contentHtml := concatBodies rest
      let pageTitle := scanTitle defaultTitle rest
      some (replaceFirst (replaceFirst layoutRes.body contentTok contentHtml)
        pageTitleTok (strBytes pageTitle))

/-! ## Helper lemmas -/

theorem getLast?_getD_cons (a d : String) (l : List String) :
    ((a :: l).getLast?).getD d = (l.getLast?).getD a := by
  cases l with
  | nil => rfl
  | cons b l =>
    rw [List.getLast?_cons_cons,
      List.getLast?_eq_getLast (b :: l) (by simp)]
    rfl

theorem scanTitle_eq (results : List MResult) :
    ∀ acc, scanTitle acc results =
      (((results.map titleHeaderOf).filter (fun t => t != "")).getLast?).getD acc := by
  induction results with
  | nil => intro acc; rfl
  | cons r rs ih =>
    intro acc
    show scanTitle (if titleHeaderOf r ≠ "" then titleHeaderOf r else acc) rs = _
    by_cases h : titleHeaderOf r = ""
    · simp [h, ih]
    · simp only [h, if_neg, ne_eq, not_false_iff, if_pos, List.map_cons,
        List.filter_cons, bne_iff_ne, ne_eq, ite_not]
      rw [ih]
      simp [h, getLast?_getD_cons]

/-! ## Claim theorems -/

/-- C8: the resolved page title is the value of the last fragment in
input order whose `X-View-Proxy-Title` header is non-empty, and the
configured default title when no fragment sets a non-empty value. -/
theorem resolveTitle_last_non_empty_wins (results : List MResult) (dflt : String) :
    resolveTitle results dflt =
      (((results.map titleHeaderOf).filter (fun t => t != "")).getLast?).getD dflt := by
  unfold resolveTitle
  rw [scanTitle_eq]
  cases hL : ((results.map titleHeaderOf).filter (fun t => t != "")).getLast? with
  | none => simp
  | some t =>
    have hmem : t ∈ (results.map titleHeaderOf).filter (fun t => t != "") := by
      obtain ⟨h, rfl⟩ :=
        List.mem_getLast?_eq_getLast (l := (results.map titleHeaderOf).filter
          (fun t => t != "")) (Option.mem_def.mpr hL)
      exact List.getLast_mem h
    have ht : t ≠ "" := by
      have := List.of_mem_filter hmem
      simpa using this
    simp [ht]

/-- C3: when the overall deadline elapses before all fragment fetches
complete, `Request.Do` returns the context deadline error together with
an empty result list; more generally, every error return of `Do` carries
an empty result list, never a partial one. -/
theorem do_timeout_returns_empty (fragments : List Frag)
    (fetchOf : Nat → Except FetchError MResult) :
    doRace fragments fetchOf .timedOut = ([], some .deadlineExceeded) ∧
    ∀ outcome e, (doRace fragments fetchOf outcome).2 = some e →
      (doRace fragments fetchOf outcome).1 = [] := by
  refine ⟨rfl, ?_⟩
  intro outcome e h
  cases outcome <;> simp [doRace] at h ⊢

/-- Witness for C3 at a concrete input. -/
theorem do_timeout_returns_empty_witness :
    doRace [] (fun _ => .error .transport) .timedOut =
      ([], some .deadlineExceeded) :=
  (do_timeout_returns_empty [] (fun _ => .error .transport)).1

/-- C4: the aggregate error path of the older `ServeHTTP` is reachable
and unsafe — when the fetch fails, the handler receives an empty result
slice (spec-modelled `multiplexer.Fetch` contract) and its unconditional
read of `results[0].Body` is out of bounds (`none` models the Go panic). -/
theorem serve_error_path_reads_empty_slot (defaultTitle : String) (e : DoError) :
    serveFetchOutput (.error e) = ([], some e) ∧
    serveHTTPFound defaultTitle (serveFetchOutput (.error e)) = none :=
  ⟨rfl, rfl⟩

/-- C2: in strict mode, a fragment response with a status outside
`[200, 299]` makes that fetch return a `ResultError` wrapping the
fragment's `Result` (status, headers and decoded body retained), and
`Request.Do`, observing that error first, returns it together with an
empty result list. -/
theorem strict_non2xx_resultError
    (gunzip : List Nat → Option (List Nat)) (fragments : List Frag)
    (resps : Nat → Option GoResponse) (i : Nat) (resp : GoResponse)
    (body : List Nat) (timeout : Nat)
    (hi : i < fragments.length)
    (hresp : resps i = some resp)
    (hstatus : resp.statusCode < 200 ∨ 299 < resp.statusCode)
    (hbody : bodyAfterEncoding gunzip resp.headers resp.body = some body) :
    fetchUrl gunzip true ((fragments.getD i default).url) (resps i) =
      .error (.resultError
        ⟨(fragments.getD i default).url, resp.statusCode, resp.headers, body⟩) ∧
    ValidOutcome timeout fragments
      (fun j => fetchUrl gunzip true ((fragments.getD j default).url) (resps j))
      (.errorFirst i (.resultError
        ⟨(fragments.getD i default).url, resp.statusCode, resp.headers, body⟩)) ∧
    doRace fragments
      (fun j => fetchUrl gunzip true ((fragments.getD j default).url) (resps j))
      (.errorFirst i (.resultError
        ⟨(fragments.getD i default).url, resp.statusCode, resp.headers, body⟩)) =
      ([], some (.fetch (.resultError
        ⟨(fragments.getD i default).url, resp.statusCode, resp.headers, body⟩))) := by
  have hfetch : fetchUrl gunzip true ((fragments.getD i default).url) (resps i) =
      .error (.resultError
        ⟨(fragments.getD i default).url, resp.statusCode, resp.headers, body⟩) := by
    rw [hresp]
    simp only [fetchUrl, hbody]
    rcases hstatus with h | h <;> simp [h, Nat.not_le_of_lt]
  exact ⟨hfetch, ⟨hi, hfetch⟩, rfl⟩

/-- Witness for C2 at a concrete input: one fragment answering 500. -/
theorem strict_non2xx_resultError_witness :
    fetchUrl (fun _ => none) true "u" (some ⟨500, [("H", "v")], [1, 2]⟩) =
      .error (.resultError ⟨"u", 500, [("H", "v")], [1, 2]⟩) ∧
    ValidOutcome 10 [⟨"u", []⟩]
      (fun j => fetchUrl (fun _ => none) true
        ((([⟨"u", []⟩] : List Frag).getD j default).url)
        ((fun _ => some (⟨500, [("H", "v")], [1, 2]⟩ : GoResponse)) j))
      (.errorFirst 0 (.resultError ⟨"u", 500, [("H", "v")], [1, 2]⟩)) ∧
    doRace [⟨"u", []⟩]
      (fun j => fetchUrl (fun _ => none) true
        ((([⟨"u", []⟩] : List Frag).getD j default).url)
        ((fun _ => some (⟨500, [("H", "v")], [1, 2]⟩ : GoResponse)) j))
      (.errorFirst 0 (.resultError ⟨"u", 500, [("H", "v")], [1, 2]⟩)) =
      ([], some (.fetch (.resultError ⟨"u", 500, [("H", "v")], [1, 2]⟩))) :=
  strict_non2xx_resultError (fun _ => none) [⟨"u", []⟩]
    (fun _ => some ⟨500, [("H", "v")], [1, 2]⟩) 0 ⟨500, [("H", "v")], [1, 2]⟩
    [1, 2] 10 (by decide) rfl (by decide) (by decide)

/-- C10: with an empty fragment list and a positive timeout, every
schedulable outcome of `Request.Do` is the `done` branch with no results,
so `Do` returns an empty result list and no error, independently of any
fetching function. -/
theorem do_empty_fragments (timeout : Nat)
    (fetchOf : Nat → Except FetchError MResult) (outcome : RaceOutcome)
    (ht : 0 < timeout)
    (hvalid : ValidOutcome timeout [] fetchOf outcome) :
    doRace [] fetchOf outcome = ([], none) ∧
    ∀ g : Nat → Except FetchError MResult, doRace [] g outcome = ([], none) := by
  cases outcome with
  | errorFirst i e => exact absurd hvalid.1 (by simp)
  | timedOut =>
    rcases hvalid with h | h
    · exact absurd rfl h
    · omega
  | allDone order =>
    have h0 : order = [] := List.Perm.eq_nil (by simpa using hvalid.1)
    subst h0
    exact ⟨rfl, fun g => rfl⟩

/-- Witness for C10 at a concrete input. -/
theorem do_empty_fragments_witness :
    doRace [] (fun _ => .error .transport) (.allDone []) = ([], none) :=
  (do_empty_fragments 5 (fun _ => .error .transport) (.allDone [])
    (by decide) (by decide)).1

/-- C9: for any gzip encoder/decoder pair satisfying the gzip round-trip
law, a response declaring `Content-Encoding: gzip` yields a `Result`
whose body is the decompression of the response bytes — byte-identical
to the uncompressed source — and a decoder failure aborts the fetch with
an error and no `Result`; without the gzip header, the body bytes pass
through unchanged. -/
theorem fetch_gzip_roundtrip (gunzip : List Nat → Option (List Nat))
    (gzipC : List Nat → List Nat)
    (hrt : ∀ b, gunzip (gzipC b) = some b)
    (strict : Bool) (url : String) (status : Nat)
    (headers : List (String × String))
    (h2xx : 200 ≤ status ∧ status ≤ 299) :
    (∀ src, headerGet headers "Content-Encoding" = "gzip" →
      fetchUrl gunzip strict url (some ⟨status, headers, gzipC src⟩) =
        .ok ⟨url, status, headers, src⟩) ∧
    (∀ raw, headerGet headers "Content-Encoding" = "gzip" → gunzip raw = none →
      fetchUrl gunzip strict url (some ⟨status, headers, raw⟩) = .error .decode) ∧
    (∀ raw, headerGet headers "Content-Encoding" ≠ "gzip" →
      fetchUrl gunzip strict url (some ⟨status, headers, raw⟩) =
        .ok ⟨url, status, headers, raw⟩) := by
  obtain ⟨h200, h299⟩ := h2xx
  have hok : (strict && (decide (status < 200) || decide (299 < status))) = false := by
    simp [Nat.not_lt_of_le h200, Nat.not_lt_of_le h299]
  refine ⟨?_, ?_, ?_⟩
  · intro src hgz
    simp [fetchUrl, bodyAfterEncoding, hgz, hrt, hok]
  · intro raw hgz hfail
    simp [fetchUrl, bodyAfterEncoding, hgz, hfail]
  · intro raw hgz
    simp [fetchUrl, bodyAfterEncoding, hgz, hok]

/-- Witness for C9 with a concrete round-tripping coder pair. -/
theorem fetch_gzip_roundtrip_witness :
    fetchUrl (fun b => match b with | 7 :: t => some t | _ => none) true "u"
      (some ⟨200, [("Content-Encoding", "gzip")], 7 :: [1, 2, 3]⟩) =
      .ok ⟨"u", 200, [("Content-Encoding", "gzip")], [1, 2, 3]⟩ :=
  (fetch_gzip_roundtrip (fun b => match b with | 7 :: t => some t | _ => none)
    (fun b => 7 :: b) (fun _ => rfl) true "u" 200
    [("Content-Encoding", "gzip")] (by decide)).1 [1, 2, 3] (by decide)

theorem findOcc_some_spec (old : List Nat) :
    ∀ (s : List Nat) (i : Nat), findOcc old s = some i →
      i ≤ s.length ∧ s = s.take i ++ old ++ s.drop (i + old.length) ∧
      (∀ p q, s = p ++ old ++ q → i ≤ p.length) := by
  intro s
  induction s with
  | nil =>
    intro i h
    by_cases hold : old = []
    · simp [findOcc, hold] at h
      subst hold
      simp [← h]
    · simp [findOcc, hold] at h
  | cons a s ih =>
    intro i h
    by_cases hpre : old.isPrefixOf (a :: s)
    · simp [findOcc, hpre] at h
      obtain ⟨t, ht⟩ := List.isPrefixOf_iff_prefix.mp hpre
      subst h
      refine ⟨Nat.zero_le _, ?_, fun p q hpq => Nat.zero_le _⟩
      conv_lhs => rw [← ht]
      simp [← ht, List.drop_left]
    · simp [findOcc, hpre] at h
      obtain ⟨j, hj, rfl⟩ := h
      obtain ⟨hle, hdec, hmin⟩ := ih j hj
      refine ⟨by simpa using Nat.succ_le_succ hle, ?_, ?_⟩
      · have : (a :: s).drop (j + 1 + old.length) = s.drop (j + old.length) := by
          have : j + 1 + old.length = (j + old.length) + 1 := by omega
          rw [this]
          rfl
        rw [this]
        show a :: s = a :: s.take j ++ old ++ s.drop (j + old.length)
        simpa using hdec
      · intro p q hpq
        cases p with
        | nil =>
          exfalso
          apply hpre
          exact List.isPrefixOf_iff_prefix.mpr ⟨q, by simpa using hpq.symm⟩
        | cons b p =>
          simp only [List.cons_append, List.cons.injEq] at hpq
          have := hmin p q hpq.2
          simpa using Nat.succ_le_succ this

theorem findOcc_none_spec (old : List Nat) :
    ∀ s : List Nat, findOcc old s = none → ∀ p q, s ≠ p ++ old ++ q := by
  intro s
  induction s with
  | nil =>
    intro h p q
    by_cases hold : old = []
    · simp [findOcc, hold] at h
    · intro hpq
      apply hold
      have := congrArg List.length hpq
      simp at this
      exact List.length_eq_zero.mp (by omega)
  | cons a s ih =>
    intro h p q hpq
    by_cases hpre : old.isPrefixOf (a :: s)
    · simp [findOcc, hpre] at h
    · simp [findOcc, hpre] at h
      cases p with
      | nil =>
        apply hpre
        exact List.isPrefixOf_iff_prefix.mpr ⟨q, by simpa using hpq.symm⟩
      | cons b p =>
        simp only [List.cons_append, List.cons.injEq] at hpq
        exact ih h p q hpq.2

theorem concatBodies_foldl (results : List MResult) :
    ∀ acc : List Nat,
      results.foldl (fun a r => a ++ r.body) acc =
        acc ++ (results.map MResult.body).flatten := by
  induction results with
  | nil => intro acc; simp
  | cons r rs ih => intro acc; simp [ih, List.append_assoc]

/-- C7: fragment bodies are concatenated in input order; with a
non-empty layout body the content and title placeholders are each
replaced via a single first-occurrence substitution
(`bytes.Replace(_, _, _, 1)`, whose first-occurrence-only behaviour is
characterised in the last two conjuncts); with no layout body the
output is the concatenated fragment buffer unchanged. -/
theorem setFragments_composition :
    (∀ (results : List MResult) (dflt : String),
      setFragments [] results dflt = concatBodies results) ∧
    (∀ results : List MResult,
      concatBodies results = (results.map MResult.body).flatten) ∧
    (∀ (layout : List Nat) (results : List MResult) (dflt : String),
      layout ≠ [] →
      setFragments layout results dflt =
        replaceFirst (replaceFirst layout contentTok (concatBodies results))
          pageTitleTok (strBytes (resolveTitle results dflt))) ∧
    (∀ s old new : List Nat, (¬ ∃ p q, s = p ++ old ++ q) →
      replaceFirst s old new = s) ∧
    (∀ s old new p q : List Nat, s = p ++ old ++ q →
      ∃ p1 q1 : List Nat, s = p1 ++ old ++ q1 ∧
        (∀ p2 q2 : List Nat, s = p2 ++ old ++ q2 → p1.length ≤ p2.length) ∧
        replaceFirst s old new = p1 ++ new ++ q1) := by
  refine ⟨fun results dflt => rfl, ?_, ?_, ?_, ?_⟩
  · intro results
    simpa using concatBodies_foldl results []
  · intro layout results dflt hne
    unfold setFragments
    rw [if_neg (by simpa [List.length_eq_zero] using hne)]
  · intro s old new hno
    cases hf : findOcc old s with
    | none => simp [replaceFirst, hf]
    | some i =>
      exact absurd ⟨s.take i, s.drop (i + old.length),
        (findOcc_some_spec old s i hf).2.1⟩ hno
  · intro s old new p q hocc
    cases hf : findOcc old s with
    | none => exact absurd hocc (findOcc_none_spec old s hf p q)
    | some i =>
      obtain ⟨hle, hdec, hmin⟩ := findOcc_some_spec old s i hf
      refine ⟨s.take i, s.drop (i + old.length), hdec, ?_, by simp [replaceFirst, hf]⟩
      intro p2 q2 h2
      calc (s.take i).length ≤ i := by simp
        _ ≤ p2.length := hmin p2 q2 h2

/-- Witness for C7: the spec's assembly example using the code's actual
placeholder tokens. -/
theorem setFragments_composition_witness :
    setFragments
      (strBytes "<html>\x7b\x7b\x7bVIEW_PROXY_CONTENT\x7d\x7d\x7d - \x7b\x7b\x7bVIEW_PROXY_PAGE_TITLE\x7d\x7d\x7d</html>")
      [⟨"u", 200, [], strBytes "A"⟩, ⟨"v", 200, [], strBytes "B"⟩] "Home" =
      replaceFirst
        (replaceFirst
          (strBytes "<html>\x7b\x7b\x7bVIEW_PROXY_CONTENT\x7d\x7d\x7d - \x7b\x7b\x7bVIEW_PROXY_PAGE_TITLE\x7d\x7d\x7d</html>")
          contentTok
          (concatBodies [⟨"u", 200, [], strBytes "A"⟩, ⟨"v", 200, [], strBytes "B"⟩]))
        pageTitleTok
        (strBytes (resolveTitle
          [⟨"u", 200, [], strBytes "A"⟩, ⟨"v", 200, [], strBytes "B"⟩] "Home")) :=
  setFragments_composition.2.2.1
    (strBytes "<html>\x7b\x7b\x7bVIEW_PROXY_CONTENT\x7d\x7d\x7d - \x7b\x7b\x7bVIEW_PROXY_PAGE_TITLE\x7d\x7d\x7d</html>")
    [⟨"u", 200, [], strBytes "A"⟩, ⟨"v", 200, [], strBytes "B"⟩] "Home"
    (by decide)

instance (fragments : List Frag) : IsTotal MResult (resultLE fragments) :=
  ⟨fun a b =>
    Int.le_total (indexOfResult fragments a) (indexOfResult fragments b)⟩

instance (fragments : List Frag) : IsTrans MResult (resultLE fragments) :=
  ⟨fun _ _ _ hab hbc => le_trans hab hbc⟩

/-- With pairwise-distinct fragment URLs, a result carrying the URL of
fragment `i` is matched back to index `i` by `indexOfResult`. -/
theorem indexOfResultAux_eq (r : MResult) :
    ∀ (fragments : List Frag) (i k : Nat), i < fragments.length →
      r.url = (fragments.getD i default).url →
      (fragments.map Frag.url).Nodup →
      indexOfResultAux fragments r k = ((k + i : Nat) : Int) := by
  intro fragments
  induction fragments with
  | nil => intro i k hi; simp at hi
  | cons f fs ih =>
    intro i k hi hurl hnodup
    cases i with
    | zero =>
      have : (f.url == r.url) = true := by
        simp only [List.getD_cons_zero] at hurl
        simp [hurl]
      simp [indexOfResultAux, this]
    | succ j =>
      have hj : j < fs.length := by simpa using hi
      have hurl' : r.url = (fs.getD j default).url := by
        simpa using hurl
      have hcons : (f.url :: fs.map Frag.url).Nodup := by simpa using hnodup
      obtain ⟨hnin, htail⟩ := List.nodup_cons.mp hcons
      have hmem : (fs.getD j default).url ∈ fs.map Frag.url := by
        have hg : fs.getD j default ∈ fs := by
          rw [List.getD_eq_getElem fs default hj]
          exact List.getElem_mem hj
        exact List.mem_map_of_mem Frag.url hg
      have hne : (f.url == r.url) = false := by
        rw [hurl']
        exact beq_eq_false_iff_ne.mpr (fun h => hnin (h ▸ hmem))
      have hrec := ih j (k + 1) hj hurl' (by simpa using htail)
      simp only [indexOfResultAux, hne, Bool.false_eq_true, if_false]
      rw [hrec]
      congr 1
      omega

theorem indexOfResult_eq (fragments : List Frag) (r : MResult) (i : Nat)
    (hi : i < fragments.length)
    (hurl : r.url = (fragments.getD i default).url)
    (hnodup : (fragments.map Frag.url).Nodup) :
    indexOfResult fragments r = (i : Int) := by
  have := indexOfResultAux_eq r fragments i 0 hi hurl hnodup
  simpa [indexOfResult] using this

/-- When every fetch read off the channel succeeded, the collected list
is just the per-goroutine results in arrival order. -/
theorem collectResults_eq_map (fetchOf : Nat → Except FetchError MResult)
    (res : Nat → MResult) :
    ∀ order : List Nat, (∀ i ∈ order, fetchOf i = .ok (res i)) →
      collectResults fetchOf order = order.map res := by
  intro order
  induction order with
  | nil => intro; rfl
  | cons a l ih =>
    intro h
    have ha := h a (List.mem_cons_self a l)
    have hta : (fetchOf a).toOption = some (res a) := by rw [ha]; rfl
    show List.filterMap _ (a :: l) = _
    rw [List.filterMap_cons, hta, List.map_cons]
    show res a :: collectResults fetchOf l = _
    rw [ih (fun i hi => h i (List.mem_cons_of_mem a hi))]

/-- C1 (amended): when every fetch succeeds and the fragment URLs are
pairwise distinct, `Request.Do` returns exactly one result per fragment,
positioned in the caller-supplied input order, for every completion
order of the concurrent fetches. -/
theorem do_all_success_input_order
    (fragments : List Frag) (fetchOf : Nat → Except FetchError MResult)
    (res : Nat → MResult) (order : List Nat)
    (hok : ∀ i < fragments.length, fetchOf i = .ok (res i))
    (hurl : ∀ i < fragments.length, (res i).url = (fragments.getD i default).url)
    (hnodup : (fragments.map Frag.url).Nodup)
    (horder : order.Perm (List.range fragments.length)) :
    doRace fragments fetchOf (.allDone order) =
      ((List.range fragments.length).map res, none) := by
  have hmem : ∀ i ∈ order, i < fragments.length := fun i hi =>
    List.mem_range.mp (horder.mem_iff.mp hi)
  have hcol : collectResults fetchOf order = order.map res :=
    collectResults_eq_map fetchOf res order (fun i hi => hok i (hmem i hi))
  have hkeyi : ∀ i < fragments.length,
      indexOfResult fragments (res i) = (i : Int) :=
    fun i hi => indexOfResult_eq fragments (res i) i hi (hurl i hi) hnodup
  have hperm : (List.insertionSort (resultLE fragments)
      (collectResults fetchOf order)).Perm
      ((List.range fragments.length).map res) := by
    rw [hcol]
    exact (List.perm_insertionSort _ _).trans (horder.map res)
  have hsortle : List.Sorted (resultLE fragments)
      (List.insertionSort (resultLE fragments) (collectResults fetchOf order)) :=
    List.sorted_insertionSort _ _
  have htkeys : (((List.range fragments.length).map res).map
      (indexOfResult fragments)) = (List.range fragments.length).map
      (fun i : Nat => (i : Int)) := by
    rw [List.map_map]
    exact List.map_congr_left (fun i hi => hkeyi i (List.mem_range.mp hi))
  have htnodup : ((((List.range fragments.length).map res)).map
      (indexOfResult fragments)).Nodup := by
    rw [htkeys]
    exact List.Nodup.map (fun a b h => by exact_mod_cast h) (List.nodup_range _)
  have hsnodup : ((List.insertionSort (resultLE fragments)
      (collectResults fetchOf order)).map (indexOfResult fragments)).Nodup :=
    (hperm.map (indexOfResult fragments)).nodup_iff.mpr htnodup
  have hne : List.Pairwise (fun a b : MResult =>
      indexOfResult fragments a ≠ indexOfResult fragments b)
      (List.insertionSort (resultLE fragments) (collectResults fetchOf order)) :=
    List.pairwise_map.mp hsnodup
  have hsortlt : List.Sorted (resultLT fragments)
      (List.insertionSort (resultLE fragments) (collectResults fetchOf order)) :=
    List.Pairwise.imp (fun h => lt_of_le_of_ne h.1 h.2)
      (List.Pairwise.and hsortle hne)
  have hsorttlt : List.Sorted (resultLT fragments)
      ((List.range fragments.length).map res) := by
    refine List.pairwise_map.mpr ?_
    refine List.Pairwise.imp_of_mem ?_ (List.pairwise_lt_range _)
    intro i j hi hj hij
    show indexOfResult fragments (res i) < indexOfResult fragments (res j)
    rw [hkeyi i (List.mem_range.mp hi), hkeyi j (List.mem_range.mp hj)]
    exact_mod_cast hij
  have hfinal : List.insertionSort (resultLE fragments)
      (collectResults fetchOf order) = (List.range fragments.length).map res :=
    List.eq_of_perm_of_sorted hperm hsortlt hsorttlt
  show (List.insertionSort (resultLE fragments)
    (collectResults fetchOf order), none) = _
  rw [hfinal]

/-- Witness for C1 at a concrete input: two distinct URLs, completion
order reversed. -/
theorem do_all_success_input_order_witness :
    doRace [⟨"u", []⟩, ⟨"v", []⟩]
      (fun i => .ok (([⟨"u", 200, [], [10]⟩, ⟨"v", 200, [], [20]⟩] :
        List MResult).getD i default))
      (.allDone [1, 0]) =
      ((List.range 2).map (fun i => (([⟨"u", 200, [], [10]⟩,
        ⟨"v", 200, [], [20]⟩] : List MResult).getD i default)), none) :=
  do_all_success_input_order [⟨"u", []⟩, ⟨"v", []⟩]
    (fun i => .ok (([⟨"u", 200, [], [10]⟩, ⟨"v", 200, [], [20]⟩] :
      List MResult).getD i default))
    (fun i => (([⟨"u", 200, [], [10]⟩, ⟨"v", 200, [], [20]⟩] :
      List MResult).getD i default))
    [1, 0] (by decide) (by decide) (by decide) (by decide)

/-- Counterexample for C1 as stated: with two fragments sharing a URL
(`u`, `v`, `u`), the URL-matching stable sort groups both `u`-results at
the front even for the identity completion order, so the returned list
is not positioned in the caller-supplied input order. -/
theorem do_duplicate_urls_counterexample :
    ValidOutcome 10 [⟨"u", []⟩, ⟨"v", []⟩, ⟨"u", []⟩]
      (fun i => .ok (([⟨"u", 200, [], [10]⟩, ⟨"v", 200, [], [20]⟩,
        ⟨"u", 200, [], [30]⟩] : List MResult).getD i default))
      (.allDone [0, 1, 2]) ∧
    (doRace [⟨"u", []⟩, ⟨"v", []⟩, ⟨"u", []⟩]
      (fun i => .ok (([⟨"u", 200, [], [10]⟩, ⟨"v", 200, [], [20]⟩,
        ⟨"u", 200, [], [30]⟩] : List MResult).getD i default))
      (.allDone [0, 1, 2])).1 =
      [⟨"u", 200, [], [10]⟩, ⟨"u", 200, [], [30]⟩, ⟨"v", 200, [], [20]⟩] ∧
    (doRace [⟨"u", []⟩, ⟨"v", []⟩, ⟨"u", []⟩]
      (fun i => .ok (([⟨"u", 200, [], [10]⟩, ⟨"v", 200, [], [20]⟩,
        ⟨"u", 200, [], [30]⟩] : List MResult).getD i default))
      (.allDone [0, 1, 2])).1 ≠
      [⟨"u", 200, [], [10]⟩, ⟨"v", 200, [], [20]⟩, ⟨"u", 200, [], [30]⟩] := by
  decide

theorem goGet_cons (p : String × String) (m : List (String × String)) (k : String) :
    goGet (p :: m) k = if p.1 == k then some p.2 else goGet m k := by
  by_cases h : (p.1 == k) = true
  · simp [goGet, List.find?_cons_of_pos _ h, h]
  · have h' : (p.1 == k) = false := by simpa using h
    simp [goGet, List.find?_cons_of_neg _ h, h']

theorem goInsert_of_not_found (m : List (String × String)) (k v : String)
    (h : m.any (fun q => q.1 == k) = false) : goInsert m k v = m ++ [(k, v)] := by
  simp only [goInsert, h, Bool.false_eq_true, if_false]

theorem goInsert_of_found (m : List (String × String)) (k v : String)
    (h : m.any (fun q => q.1 == k) = true) :
    goInsert m k v = m.map (fun q => if q.1 == k then (k, v) else q) := by
  simp only [goInsert, h, if_true]

theorem goMap_id_of_not_found (m : List (String × String)) (k v : String)
    (h : m.any (fun q => q.1 == k) = false) :
    m.map (fun q => if q.1 == k then (k, v) else q) = m := by
  conv_rhs => rw [← List.map_id m]
  apply List.map_congr_left
  intro q hq
  have hqk : (q.1 == k) = false := by
    by_contra hc
    simp only [Bool.not_eq_false] at hc
    have : m.any (fun q => q.1 == k) = true := List.any_eq_true.mpr ⟨q, hq, hc⟩
    rw [this] at h
    exact Bool.true_eq_false.mp h
  simp [hqk]

theorem goGet_goInsert_same : ∀ (m : List (String × String)) (k v : String),
    goGet (goInsert m k v) k = some v := by
  intro m
  induction m with
  | nil =>
    intro k v
    rw [goInsert_of_not_found [] k v rfl]
    simp [goGet_cons]
  | cons p m' ih =>
    intro k v
    by_cases hp : (p.1 == k) = true
    · rw [goInsert_of_found _ k v (by simp only [List.any_cons, hp, Bool.true_or]), List.map_cons,
        if_pos hp, goGet_cons]
      simp
    · have hp' : (p.1 == k) = false := by simpa using hp
      by_cases ham : m'.any (fun q => q.1 == k) = true
      · rw [goInsert_of_found _ k v (by simp only [List.any_cons, ham, Bool.or_true]), List.map_cons,
          if_neg hp, goGet_cons]
        rw [if_neg hp]
        rw [← goInsert_of_found m' k v ham]
        exact ih k v
      · have ham' : m'.any (fun q => q.1 == k) = false := by
          revert ham
          cases m'.any (fun q => q.1 == k) <;> simp
        rw [goInsert_of_not_found _ k v (by simp only [List.any_cons, hp', ham', Bool.false_or]),
          List.cons_append, goGet_cons, if_neg hp,
          ← goInsert_of_not_found m' k v ham']
        exact ih k v

theorem goGet_goInsert_other : ∀ (m : List (String × String)) (k v k2 : String),
    k2 ≠ k → goGet (goInsert m k v) k2 = goGet m k2 := by
  intro m
  induction m with
  | nil =>
    intro k v k2 h
    rw [goInsert_of_not_found [] k v rfl]
    simp [goGet_cons, goGet, beq_eq_false_iff_ne.mpr (fun hh : k = k2 => h hh.symm)]
  | cons p m' ih =>
    intro k v k2 h
    have hkk2 : (k == k2) = false :=
      beq_eq_false_iff_ne.mpr (fun hh : k = k2 => h hh.symm)
    by_cases hp : (p.1 == k) = true
    · have hpk : p.1 = k := by simpa using hp
      have hp2 : (p.1 == k2) = false := by
        rw [hpk]
        exact hkk2
      rw [goInsert_of_found _ k v (by simp only [List.any_cons, hp, Bool.true_or]), List.map_cons,
        if_pos hp, goGet_cons, goGet_cons, hkk2, hp2]
      simp only [Bool.false_eq_true, if_false]
      by_cases ham : m'.any (fun q => q.1 == k) = true
      · rw [← goInsert_of_found m' k v ham]
        exact ih k v k2 h
      · have ham' : m'.any (fun q => q.1 == k) = false := by
          revert ham
          cases m'.any (fun q => q.1 == k) <;> simp
        rw [goMap_id_of_not_found m' k v ham']
    · have hp' : (p.1 == k) = false := by simpa using hp
      by_cases ham : m'.any (fun q => q.1 == k) = true
      · rw [goInsert_of_found _ k v (by simp only [List.any_cons, ham, Bool.or_true]), List.map_cons,
          if_neg hp, goGet_cons, goGet_cons]
        by_cases hk2 : (p.1 == k2) = true
        · rw [hk2]
          simp
        · have hk2' : (p.1 == k2) = false := by simpa using hk2
          rw [hk2']
          simp only [Bool.false_eq_true, if_false]
          rw [← goInsert_of_found m' k v ham]
          exact ih k v k2 h
      · have ham' : m'.any (fun q => q.1 == k) = false := by
          revert ham
          cases m'.any (fun q => q.1 == k) <;> simp
        rw [goInsert_of_not_found _ k v (by simp only [List.any_cons, hp', ham', Bool.false_or]),
          List.cons_append, goGet_cons, goGet_cons]
        by_cases hk2 : (p.1 == k2) = true
        · rw [hk2]
          simp
        · have hk2' : (p.1 == k2) = false := by simpa using hk2
          rw [hk2']
          simp only [Bool.false_eq_true, if_false]
          rw [← goInsert_of_not_found m' k v ham']
          exact ih k v k2 h

theorem paramNames_cons (a : String) (rp : List String) :
    paramNames (a :: rp) =
      if goHasPrefix a ":" then goStrDropOne a :: paramNames rp
      else paramNames rp := by
  by_cases h : goHasPrefix a ":" = true
  · simp [paramNames, List.filter_cons, h]
  · have h' : goHasPrefix a ":" = false := by
      revert h
      cases goHasPrefix a ":" <;> simp
    simp [paramNames, List.filter_cons, h']

theorem parametersForLoop_not_param :
    ∀ (rp pp : List String) (m : List (String × String)) (name : String),
      name ∉ paramNames rp →
      goGet (parametersForLoop m rp pp) name = goGet m name := by
  intro rp
  induction rp with
  | nil => intro pp m name h; rfl
  | cons a rp' ih =>
    intro pp m name h
    cases pp with
    | nil => rfl
    | cons b pp' =>
      show goGet (parametersForLoop
        (if goHasPrefix a ":" then goInsert m (goStrDropOne a) b else m) rp' pp')
        name = goGet m name
      by_cases hpre : goHasPrefix a ":" = true
      · rw [paramNames_cons, if_pos hpre] at h
        have hne : name ≠ goStrDropOne a := fun hc => h (hc ▸ List.mem_cons_self _ _)
        have htl : name ∉ paramNames rp' := fun hc => h (List.mem_cons_of_mem _ hc)
        rw [if_pos hpre, ih pp' _ name htl, goGet_goInsert_other m _ b name hne]
      · have hpre' : goHasPrefix a ":" = false := by
          revert hpre
          cases goHasPrefix a ":" <;> simp
        rw [paramNames_cons, if_neg (by simp [hpre'])] at h
        rw [if_neg (by simp [hpre']), ih pp' m name h]

theorem parametersForLoop_capture :
    ∀ (rp pp : List String) (m : List (String × String)) (i : Nat),
      i < rp.length → i < pp.length →
      goHasPrefix (rp.getD i "") ":" = true →
      (paramNames rp).Nodup →
      goGet (parametersForLoop m rp pp) (goStrDropOne (rp.getD i "")) =
        some (pp.getD i "") := by
  intro rp
  induction rp with
  | nil => intro pp m i h1; simp at h1
  | cons a rp' ih =>
    intro pp m i h1 h2 hpre hnodup
    cases pp with
    | nil => simp at h2
    | cons b pp' =>
      cases i with
      | zero =>
        simp only [List.getD_cons_zero] at hpre ⊢
        show goGet (parametersForLoop
          (if goHasPrefix a ":" then goInsert m (goStrDropOne a) b else m) rp' pp')
          (goStrDropOne a) = some b
        rw [if_pos hpre]
        rw [paramNames_cons, if_pos hpre] at hnodup
        have hnin : goStrDropOne a ∉ paramNames rp' := (List.nodup_cons.mp hnodup).1
        rw [parametersForLoop_not_param rp' pp' _ _ hnin, goGet_goInsert_same]
      | succ j =>
        simp only [List.getD_cons_succ] at hpre ⊢
        show goGet (parametersForLoop
          (if goHasPrefix a ":" then goInsert m (goStrDropOne a) b else m) rp' pp')
          (goStrDropOne (rp'.getD j "")) = some (pp'.getD j "")
        have h1' : j < rp'.length := by simpa using h1
        have h2' : j < pp'.length := by simpa using h2
        have hnodup' : (paramNames rp').Nodup := by
          rw [paramNames_cons] at hnodup
          by_cases hp : goHasPrefix a ":" = true
          · rw [if_pos hp] at hnodup
            exact (List.nodup_cons.mp hnodup).2
          · rwa [if_neg hp] at hnodup
        exact ih pp' _ j h1' h2' hpre hnodup'

theorem zip_all_iff :
    ∀ rp pp : List String, rp.length = pp.length →
      ((List.zip rp pp).all (fun p => p.1 == p.2 || goHasPrefix p.1 ":") = true ↔
        ∀ i < rp.length,
          rp.getD i "" = pp.getD i "" ∨ goHasPrefix (rp.getD i "") ":" = true) := by
  intro rp
  induction rp with
  | nil => intro pp h; simp
  | cons a rp' ih =>
    intro pp h
    cases pp with
    | nil => simp at h
    | cons b pp' =>
      have h' : rp'.length = pp'.length := by simpa using h
      constructor
      · intro hall i hi
        rw [List.zip_cons_cons, List.all_cons, Bool.and_eq_true] at hall
        obtain ⟨hhead, htail⟩ := hall
        cases i with
        | zero =>
          simp only [List.getD_cons_zero]
          rw [Bool.or_eq_true] at hhead
          rcases hhead with hh | hh
          · exact Or.inl (by simpa using hh)
          · exact Or.inr hh
        | succ j =>
          simp only [List.getD_cons_succ]
          exact (ih pp' h').mp htail j (by simpa using hi)
      · intro hP
        rw [List.zip_cons_cons, List.all_cons, Bool.and_eq_true]
        constructor
        · rcases hP 0 (Nat.succ_pos _) with hh | hh
          · simp only [List.getD_cons_zero] at hh
            simp [hh]
          · simp only [List.getD_cons_zero] at hh
            simp [hh]
        · exact (ih pp' h').mpr (fun j hj => by
            have := hP (j + 1) (by simpa using hj)
            simpa using this)

theorem matchParts_iff (rp pp : List String) :
    matchParts rp pp = true ↔
      (rp.length = pp.length ∧ ∀ i < rp.length,
        rp.getD i "" = pp.getD i "" ∨ goHasPrefix (rp.getD i "") ":" = true) := by
  constructor
  · intro h
    unfold matchParts at h
    rw [Bool.and_eq_true] at h
    obtain ⟨hlen, hall⟩ := h
    have hlen' : rp.length = pp.length := by simpa using hlen
    exact ⟨hlen', (zip_all_iff rp pp hlen').mp hall⟩
  · intro ⟨hlen, hP⟩
    unfold matchParts
    rw [Bool.and_eq_true]
    exact ⟨by simpa using hlen, (zip_all_iff rp pp hlen).mpr hP⟩

/-- `List.find?` returns exactly the first element satisfying the
predicate. -/
theorem find?_first_iff {α : Type} (p : α → Bool) :
    ∀ (l : List α) (x : α),
      l.find? p = some x ↔
        ∃ pre post, l = pre ++ x :: post ∧ p x = true ∧
          ∀ y ∈ pre, p y = false := by
  intro l
  induction l with
  | nil =>
    intro x
    constructor
    · intro h; simp at h
    · rintro ⟨pre, post, heq, -, -⟩
      exact absurd heq (by simp)
  | cons a l' ih =>
    intro x
    by_cases ha : p a = true
    · rw [List.find?_cons_of_pos _ ha]
      constructor
      · intro h
        have hax : a = x := Option.some.inj h
        subst hax
        exact ⟨[], l', rfl, ha, by simp⟩
      · rintro ⟨pre, post, heq, hx, hpre⟩
        cases pre with
        | nil =>
          simp only [List.nil_append, List.cons.injEq] at heq
          rw [heq.1]
        | cons q pre' =>
          simp only [List.cons_append, List.cons.injEq] at heq
          have hq := hpre q (List.mem_cons_self _ _)
          rw [← heq.1, ha] at hq
          exact absurd hq (by simp)
    · have ha' : p a = false := by
        revert ha
        cases p a <;> simp
      rw [List.find?_cons_of_neg _ (by simp [ha'])]
      rw [ih x]
      constructor
      · rintro ⟨pre, post, heq, hx, hpre⟩
        refine ⟨a :: pre, post, by rw [heq]; rfl, hx, ?_⟩
        intro y hy
        rcases List.mem_cons.mp hy with rfl | hy'
        · exact ha'
        · exact hpre y hy'
      · rintro ⟨pre, post, heq, hx, hpre⟩
        cases pre with
        | nil =>
          simp only [List.nil_append, List.cons.injEq] at heq
          rw [← heq.1] at hx
          rw [hx] at ha'
          exact absurd ha' (by simp)
        | cons q pre' =>
          simp only [List.cons_append, List.cons.injEq] at heq
          exact ⟨pre', post, heq.2, hx,
            fun y hy => hpre y (List.mem_cons_of_mem _ hy)⟩

theorem matchingRoute_eq (routes : List Route) (path : String) :
    matchingRoute routes path =
      match routes.find? (fun r => matchParts r.parts (goSplitSlash path)) with
      | some r => some (r, parametersFor r.parts (goSplitSlash path))
      | none => none := rfl

/-- C5 (amended): match succeeds iff segment counts agree and every
segment is positionally equal or a parameter; when the route's parameter
names are pairwise distinct, each captured value equals the
corresponding path segment verbatim; `matchingRoute` returns the first
matching route in registration order (with its parameters) or no-match
when none matches. -/
theorem routing_spec :
    (∀ rp pp : List String, matchParts rp pp = true ↔
      (rp.length = pp.length ∧ ∀ i < rp.length,
        rp.getD i "" = pp.getD i "" ∨ goHasPrefix (rp.getD i "") ":" = true)) ∧
    (∀ (rp pp : List String) (i : Nat), i < rp.length → i < pp.length →
      goHasPrefix (rp.getD i "") ":" = true → (paramNames rp).Nodup →
      goGet (parametersFor rp pp) (goStrDropOne (rp.getD i "")) =
        some (pp.getD i "")) ∧
    (∀ (routes : List Route) (path : String),
      (matchingRoute routes path = none ↔
        ∀ r ∈ routes, matchParts r.parts (goSplitSlash path) = false) ∧
      (∀ (r : Route) (ps : List (String × String)),
        matchingRoute routes path = some (r, ps) ↔
          ∃ pre post, routes = pre ++ r :: post ∧
            matchParts r.parts (goSplitSlash path) = true ∧
            (∀ r2 ∈ pre, matchParts r2.parts (goSplitSlash path) = false) ∧
            ps = parametersFor r.parts (goSplitSlash path))) := by
  refine ⟨matchParts_iff, ?_, ?_⟩
  · intro rp pp i h1 h2 hpre hnodup
    exact parametersForLoop_capture rp pp [] i h1 h2 hpre hnodup
  · intro routes path
    constructor
    · rw [matchingRoute_eq]
      cases hf : routes.find? (fun r => matchParts r.parts (goSplitSlash path)) with
      | none =>
        constructor
        · intro _ r hr
          have hnp := List.find?_eq_none.mp hf r hr
          revert hnp
          cases matchParts r.parts (goSplitSlash path) <;> simp
        · intro _
          rfl
      | some r0 =>
        constructor
        · intro h
          exact absurd h (by simp)
        · intro hall
          have hr0 : matchParts r0.parts (goSplitSlash path) = true :=
            @List.find?_some Route (fun r => matchParts r.parts (goSplitSlash path))
              r0 routes hf
          rw [hall r0 (List.mem_of_find?_eq_some hf)] at hr0
          exact absurd hr0 (by simp)
    · intro r ps
      rw [matchingRoute_eq]
      cases hf : routes.find? (fun r2 => matchParts r2.parts (goSplitSlash path)) with
      | none =>
        constructor
        · intro h
          exact absurd h (by simp)
        · rintro ⟨pre, post, heq, hmatch, hpre, hps⟩
          have hsome : routes.find?
              (fun r2 => matchParts r2.parts (goSplitSlash path)) = some r :=
            (find?_first_iff _ routes r).mpr ⟨pre, post, heq, hmatch, hpre⟩
          rw [hf] at hsome
          exact absurd hsome (by simp)
      | some r0 =>
        constructor
        · intro h
          have h' := Option.some.inj h
          have h1 : r0 = r := congrArg Prod.fst h'
          have h2 : parametersFor r0.parts (goSplitSlash path) = ps :=
            congrArg Prod.snd h'
          subst h1
          obtain ⟨pre, post, heq, hmatch, hpre⟩ :=
            (find?_first_iff _ routes r0).mp hf
          exact ⟨pre, post, heq, hmatch, hpre, h2.symm⟩
        · rintro ⟨pre, post, heq, hmatch, hpre, hps⟩
          have hsome : routes.find?
              (fun r2 => matchParts r2.parts (goSplitSlash path)) = some r :=
            (find?_first_iff _ routes r).mpr ⟨pre, post, heq, hmatch, hpre⟩
          rw [hf] at hsome
          have hr : r0 = r := Option.some.inj hsome
          subst hr
          rw [hps]

/-- Witness for C5 at a concrete input: `/hello/:name` captures
`name = world` from `/hello/world`. -/
theorem routing_spec_witness :
    goGet (parametersFor ["", "hello", ":name"] ["", "hello", "world"])
      (goStrDropOne (["", "hello", ":name"].getD 2 "")) =
      some (["", "hello", "world"].getD 2 "") :=
  routing_spec.2.1 ["", "hello", ":name"] ["", "hello", "world"] 2
    (by decide) (by decide) (by decide) (by decide)

/-- Counterexample for C5 as stated: a route with the duplicated
parameter name `:a` matches, but the captured value of the first `:a`
segment (index 1, path segment `x`) is `y` — the later occurrence
overwrote it in the Go map. -/
theorem route_duplicate_param_counterexample :
    matchParts ["", ":a", ":a"] ["", "x", "y"] = true ∧
    goHasPrefix (["", ":a", ":a"].getD 1 "") ":" = true ∧
    goGet (parametersFor ["", ":a", ":a"] ["", "x", "y"])
      (goStrDropOne (["", ":a", ":a"].getD 1 "")) ≠
      some (["", "x", "y"].getD 1 "") ∧
    goGet (parametersFor ["", ":a", ":a"] ["", "x", "y"]) "a" = some "y" := by
  decide

theorem headerGet_cons (p : String × String) (m : List (String × String))
    (k : String) :
    headerGet (p :: m) k = if p.1 == k then p.2 else headerGet m k := by
  by_cases h : (p.1 == k) = true
  · simp [headerGet, List.find?_cons_of_pos _ h, h]
  · have h' : (p.1 == k) = false := by simpa using h
    simp [headerGet, List.find?_cons_of_neg _ h, h']

theorem headerGet_headerSet_same :
    ∀ (m : List (String × String)) (k v : String),
      headerGet (headerSet m k v) k = v := by
  intro m
  induction m with
  | nil =>
    intro k v
    simp [headerSet, headerGet_cons, headerGet]
  | cons p m' ih =>
    intro k v
    by_cases hp : (p.1 == k) = true
    · show headerGet ((p :: m').filter (fun q => ¬(q.1 == k)) ++ [(k, v)]) k = v
      rw [List.filter_cons, if_neg (by simp [hp])]
      exact ih k v
    · have hp' : (p.1 == k) = false := by simpa using hp
      show headerGet ((p :: m').filter (fun q => ¬(q.1 == k)) ++ [(k, v)]) k = v
      rw [List.filter_cons, if_pos (by simp [hp']), List.cons_append,
        headerGet_cons, hp']
      simp only [Bool.false_eq_true, if_false]
      exact ih k v

theorem headerGet_headerSet_other :
    ∀ (m : List (String × String)) (k v k2 : String), k2 ≠ k →
      headerGet (headerSet m k v) k2 = headerGet m k2 := by
  intro m
  induction m with
  | nil =>
    intro k v k2 h
    have : (k == k2) = false :=
      beq_eq_false_iff_ne.mpr (fun hh : k = k2 => h hh.symm)
    simp [headerSet, headerGet_cons, headerGet, this]
  | cons p m' ih =>
    intro k v k2 h
    by_cases hp : (p.1 == k) = true
    · have hpk : p.1 = k := by simpa using hp
      have hp2 : (p.1 == k2) = false := by
        rw [hpk]
        exact beq_eq_false_iff_ne.mpr (fun hh : k = k2 => h hh.symm)
      show headerGet ((p :: m').filter (fun q => ¬(q.1 == k)) ++ [(k, v)]) k2 = _
      rw [List.filter_cons, if_neg (by simp [hp]), headerGet_cons, hp2]
      simp only [Bool.false_eq_true, if_false]
      exact ih k v k2 h
    · have hp' : (p.1 == k) = false := by simpa using hp
      show headerGet ((p :: m').filter (fun q => ¬(q.1 == k)) ++ [(k, v)]) k2 = _
      rw [List.filter_cons, if_pos (by simp [hp']), List.cons_append,
        headerGet_cons, headerGet_cons]
      by_cases hk2 : (p.1 == k2) = true
      · rw [hk2]
        simp
      · have hk2' : (p.1 == k2) = false := by simpa using hk2
        rw [hk2']
        simp only [Bool.false_eq_true, if_false]
        exact ih k v k2 h

/-- FIPS 180-4 test vector, validating the executable SHA-256. -/
theorem sha256_abc_vector :
    hexEncode (sha256 (strBytes "abc")) =
      "ba7816bf8f01cfea414140de5dae2223b00361a396177a9cb410ff61f20015ad" := by
  decide

/-- RFC 4231 test case 2, validating the executable HMAC-SHA256. -/
theorem hmac_rfc4231_vector :
    hexEncode (hmacSha256 (strBytes "Jefe")
      (strBytes "what do ya want for nothing?")) =
      "5bdcc146bf60754e6a042426089575c75a003f089d2739839dec58b964ec3843" := by
  decide

/-- C6 (amended): with an HMAC secret configured, the outbound headers
carry `Authorization = hex(HMAC-SHA256(secret, signedString))` and
`X-Authorization-Time = T`, where the signed string is
`urlPath ++ "?" ++ rawQuery ++ "," ++ T` when the raw query is
non-empty and `urlPath ++ "," ++ T` (no `?`) when it is empty. -/
theorem headers_with_hmac_spec (header : List (String × String))
    (secret path rawQuery : String) (T : Nat) :
    headerGet (headersWithHmac header secret path rawQuery T) "Authorization" =
      hexEncode (hmacSha256 (strBytes secret)
        (strBytes (pathFromFullUrl path rawQuery ++ "," ++ toString T))) ∧
    headerGet (headersWithHmac header secret path rawQuery T)
      "X-Authorization-Time" = toString T ∧
    (rawQuery ≠ "" → pathFromFullUrl path rawQuery = path ++ "?" ++ rawQuery) ∧
    (rawQuery = "" → pathFromFullUrl path rawQuery = path) := by
  refine ⟨?_, ?_, ?_, ?_⟩
  · show headerGet (headerSet (headerSet header "Authorization" _)
      "X-Authorization-Time" _) "Authorization" = _
    rw [headerGet_headerSet_other _ _ _ _ (by decide), headerGet_headerSet_same]
  · show headerGet (headerSet (headerSet header "Authorization" _)
      "X-Authorization-Time" _) "X-Authorization-Time" = _
    rw [headerGet_headerSet_same]
  · intro h
    simp [pathFromFullUrl, h]
  · intro h
    simp [pathFromFullUrl, h]

/-- Witness for C6 at a concrete input with a non-empty query. -/
theorem headers_with_hmac_spec_witness :
    headerGet (headersWithHmac [] "S" "/frag" "x=1" 7) "Authorization" =
      hexEncode (hmacSha256 (strBytes "S")
        (strBytes (pathFromFullUrl "/frag" "x=1" ++ "," ++ toString 7))) ∧
    pathFromFullUrl "/frag" "x=1" = "/frag" ++ "?" ++ "x=1" :=
  ⟨(headers_with_hmac_spec [] "S" "/frag" "x=1" 7).1,
   (headers_with_hmac_spec [] "S" "/frag" "x=1" 7).2.2.1 (by decide)⟩

/-- Counterexample for C6 as stated: with an empty raw query the code
signs `"/frag,0"`, not `"/frag?,0"`, so the Authorization value differs
from the claimed formula `hex(HMAC-SHA256(secret, "urlPath?rawQuery,T"))`. -/
theorem hmac_empty_query_counterexample :
    headerGet (headersWithHmac [] "S" "/frag" "" 0) "Authorization" ≠
      hexEncode (hmacSha256 (strBytes "S")
        (strBytes ("/frag" ++ "?" ++ "" ++ "," ++ toString (0 : Nat)))) := by
  decide

end Viewproxy
